import Mathlib

/-!
# Verification of the gitlab-prometheus-exporter aggregation core

Shallow embedding of `src/gitlab-prometheus-exporter.py`.  Python dicts are
modelled as insertion-ordered association lists (`List (key × value)`), with
`getA` for `d.get(k)` / `d[k]` and `setA` for `d[k] = v` (updating in place
when the key is present, appending otherwise, exactly like a Python dict).
Timestamps are integers (seconds), so a duration `updated_at - created_at`
is an `Int`.  Generators are modelled as the lists they yield.
-/

set_option autoImplicit false

namespace GitlabExporter

/-- A pipeline record as fetched from GitLab (the fields the aggregator reads). -/
structure Pipeline where
  id : Nat
  ref : String
  status : String
  created_at : Int
  updated_at : Int
deriving DecidableEq, Repr

/-- The per-project batch mapping handed to the aggregation functions:
`project → list of pipeline records`, a Python dict in insertion order. -/
abbrev Data := List (String × List Pipeline)

/-- `BRANCHES = ['master', 'main']`. -/
def BRANCHES : List String := ["master", "main"]

/-- `DURATION_BUCKETS`, the fixed upper bounds in seconds. -/
def DURATION_BUCKETS : List Int := [180, 300, 600, 900, 1200, 1500, 1800, 2100, 2400, 2700]

/-- A histogram bucket upper bound: a finite bound or `"+Inf"`. -/
inductive Bound where
  | fin : Int → Bound
  | inf : Bound
deriving DecidableEq, Repr

/-- `duration < float(bucket)`: the strict comparison of the source; everything
is below `+Inf`. -/
def Bound.below (d : Int) : Bound → Bool
  | .fin n => decide (d < n)
  | .inf => true

/-- `DURATION_BUCKETS + ["+Inf"]`, the full bucket ladder. -/
def durationBuckets : List Bound := DURATION_BUCKETS.map Bound.fin ++ [Bound.inf]

/-- Comparison of bucket bounds: finite bounds by value, `+Inf` above all. -/
def Bound.leB : Bound → Bound → Bool
  | .fin m, .fin n => decide (m ≤ n)
  | _, .inf => true
  | .inf, .fin _ => false

section Dict

variable {α : Type} {β : Type} [DecidableEq α]

/-- `d.get(k)`: first value stored under `k`, if any. -/
def getA : List (α × β) → α → Option β
  | [], _ => none
  | (k, v) :: rest, a => if k = a then some v else getA rest a

/-- `d[k] = v`: replace the value at `k` in place, or append the new pair. -/
def setA (a : α) (v : β) : List (α × β) → List (α × β)
  | [] => [(a, v)]
  | (k, w) :: rest => if k = a then (a, v) :: rest else (k, w) :: setA a v rest

/-- The keys of a dict, in order. -/
def keysA (l : List (α × β)) : List α := l.map Prod.fst

end Dict

/-- `IncompletePipeline`: the condition raised for a record without a defined
duration. -/
inductive PipelineError where
  | incomplete
deriving DecidableEq, Repr

/-- `calculate_duration`: raises `IncompletePipeline` unless the status is
`"success"`, otherwise returns `updated_at - created_at` in seconds. -/
def calculate_duration (p : Pipeline) : Except PipelineError Int :=
  if p.status ≠ "success" then
    .error .incomplete
  else
    .ok (p.updated_at - p.created_at)

/-- The body of `find_applicable_buckets`, parameterised by the bucket list it
iterates over: yield every bucket the duration is strictly below. -/
def find_applicable_bucketsIn (buckets : List Bound) (duration : Int) : List Bound :=
  buckets.filter (fun b => Bound.below duration b)

/-- `find_applicable_buckets`: the same loop over `DURATION_BUCKETS + ["+Inf"]`. -/
def find_applicable_buckets (duration : Int) : List Bound :=
  find_applicable_bucketsIn durationBuckets duration

/-- One step of the inner loop of `gitlab_pipelines_total`: skip the record if
its ref is not the branch, otherwise `counts[project] += 1`. -/
def countStep (branch project : String) (counts : List (String × Nat)) (p : Pipeline) :
    List (String × Nat) :=
  if p.ref ≠ branch then counts
  else setA project ((getA counts project).getD 0 + 1) counts

/-- The per-branch loop of `gitlab_pipelines_total`: for each project first
`counts[project] = counts.get(project, 0)`, then tally the matching records. -/
def totalsForBranch (branch : String) (data : Data) : List (String × Nat) :=
  data.foldl
    (fun counts pr =>
      pr.2.foldl (countStep branch pr.1) (setA pr.1 ((getA counts pr.1).getD 0) counts))
    []

/-- `gitlab_pipelines_total`: for every branch, yield `(count, [project, branch])`
for every project key of the input mapping. -/
def gitlab_pipelines_total (data : Data) : List (Nat × String × String) :=
  BRANCHES.flatMap fun branch =>
    (totalsForBranch branch data).map fun e => (e.2, e.1, branch)

/-- The Failure Memory `_seen`: `project → list of pipeline ids`. -/
abbrev Seen := List (String × List Nat)

/-- `_errored(project, pipelines)`: classify as errors the records whose status
is `"failed"` or whose id is already in `_seen[project]`, then replace
`_seen[project]` with the ids of those errors.  Returns the errors and the
updated memory. -/
def erroredStep (seen : Seen) (project : String) (pipelines : List Pipeline) :
    List Pipeline × Seen :=
  let seen := setA project ((getA seen project).getD []) seen
  let errors := pipelines.filter fun p =>
    p.status == "failed" || ((getA seen project).getD []).contains p.id
  (errors, setA project (errors.map (·.id)) seen)

/-- `errored(data)`: apply `_errored` to every project of the mapping, building
`result[project] = errors` in input order. -/
def errored (seen : Seen) (data : Data) : Data × Seen :=
  data.foldl
    (fun acc pr =>
      let r := erroredStep acc.2 pr.1 pr.2
      (acc.1 ++ [(pr.1, r.1)], r.2))
    ([], seen)

/-- The mutable state of the per-branch loop of
`gitlab_pipeline_duration_seconds`: the `counts` dict
(`project → (bucket → count)`) and the `durations` dict (`project → sum`). -/
structure DurState where
  counts : List (String × List (Bound × Nat))
  durations : List (String × Int)
deriving DecidableEq, Repr

/-- `counts[project][bucket] = counts[project].get(bucket, 0)` for every bucket
of the ladder. -/
def initBuckets (bc : List (Bound × Nat)) : List (Bound × Nat) :=
  durationBuckets.foldl (fun bc b => setA b ((getA bc b).getD 0) bc) bc

/-- `counts[project][bucket] += 1` for every applicable bucket. -/
def observeBuckets (duration : Int) (bc : List (Bound × Nat)) : List (Bound × Nat) :=
  (find_applicable_buckets duration).foldl
    (fun bc b => setA b ((getA bc b).getD 0 + 1) bc) bc

/-- The per-record body of `gitlab_pipeline_duration_seconds`: skip records of
other branches, skip records whose duration is undefined (the
`IncompletePipeline` handler), otherwise initialise the structures for the
project and add the observation. -/
def durStep (branch project : String) (st : DurState) (p : Pipeline) : DurState :=
  if p.ref ≠ branch then st
  else
    match calculate_duration p with
    | .error _ => st
    | .ok d =>
      let durations := setA project ((getA st.durations project).getD 0) st.durations
      let bc := initBuckets ((getA st.counts project).getD [])
      { durations := setA project ((getA durations project).getD 0 + d) durations
        counts := setA project (observeBuckets d bc) st.counts }

/-- `gitlab_pipeline_duration_seconds`: per branch, fold every record through
`durStep`, then yield, for every project key of `counts`, the bucket list in
ladder order, the duration sum, and the labels. -/
def gitlab_pipeline_duration_seconds (data : Data) :
    List (List (Bound × Nat) × Int × String × String) :=
  BRANCHES.flatMap fun branch =>
    let st : DurState :=
      data.foldl (fun st pr => pr.2.foldl (durStep branch pr.1) st) ⟨[], []⟩
    st.counts.map fun e =>
      (durationBuckets.map fun b => (b, (getA e.2 b).getD 0),
       (getA st.durations e.1).getD 0, e.1, branch)

/-- The four metric families built by one scrape cycle. -/
structure Snapshot where
  totals : List (Nat × String × String)
  errors : List (Nat × String × String)
  in_progress : List (Nat × String × String)
  duration : List (List (Bound × Nat) × Int × String × String)
deriving Repr

/-- The process state touched by `scrape`: the Metric Snapshot Store `metrics`
(empty before the first successful cycle) and the Failure Memory `_seen`. -/
structure State where
  metrics : Option Snapshot
  seen : Seen
deriving Repr

/-- `scrape()`: the two fetches are passed as arguments, each either a batch or
a transport error.  The cycle builds the totals family, runs `errored` (which
writes the Failure Memory), builds the errors family, performs the second
fetch, builds the in-progress and duration families, and finally replaces
`metrics` in one step.  A raised transport error propagates out of the cycle,
leaving the mutations made so far in place. -/
def scrape (fetch1 fetch2 : Except Unit Data) (st : State) : State × Except Unit Unit :=
  match fetch1 with
  | .error e => (st, .error e)
  | .ok pipelines =>
    let totalsFam := gitlab_pipelines_total pipelines
    let r := errored st.seen pipelines
    let errorsFam := gitlab_pipelines_total r.1
    match fetch2 with
    | .error e => ({ st with seen := r.2 }, .error e)
    | .ok in_progress =>
      let inProgressFam := gitlab_pipelines_total in_progress
      let durationFam := gitlab_pipeline_duration_seconds pipelines
      ({ metrics := some ⟨totalsFam, errorsFam, inProgressFam, durationFam⟩, seen := r.2 },
       .ok ())

/-- The number of records of a batch whose ref equals the branch (the value the
tally of `gitlab_pipelines_total` computes per project). -/
def countBranch (branch : String) (pipelines : List Pipeline) : Nat :=
  (pipelines.filter fun p => decide (p.ref = branch)).length

/-- The durations of the records of a batch that match the branch and have a
defined duration (status `"success"`), in order. -/
def successDurations (branch : String) (pipelines : List Pipeline) : List Int :=
  (pipelines.filter fun p => decide (p.ref = branch)).filterMap fun p =>
    (calculate_duration p).toOption

/-- The count the aggregation produces for one bucket: the number of observed
durations strictly below the bucket's bound. -/
def bucketCount (obs : List Int) (b : Bound) : Nat :=
  (obs.filter fun d => Bound.below d b).length

/-- The count the claim's cumulative reading would produce for a finite bucket:
the number of observed durations less than *or equal to* the bound. -/
def bucketCountLE (obs : List Int) (n : Int) : Nat :=
  (obs.filter fun d => decide (d ≤ n)).length

/-- The bucket dict holding `f b` for every bucket `b` of the ladder, in ladder
order. -/
def tab (f : Bound → Nat) : List (Bound × Nat) := durationBuckets.map fun b => (b, f b)

/-- The observations one record contributes to a branch's histogram: its
duration when the ref matches and the duration is defined, nothing otherwise. -/
def obsOf (branch : String) (p : Pipeline) : List Int :=
  if p.ref = branch then
    match calculate_duration p with
    | .ok d => [d]
    | .error _ => []
  else []

/-- The loop state of the duration aggregation once the observations `obs`
have been folded in for one project, starting from dicts `C` and `D` that do
not mention the project: nothing is added while no observation has been seen,
and afterwards the project's entries trail the dicts. -/
def durStateFor (C : List (String × List (Bound × Nat))) (D : List (String × Int))
    (project : String) (obs : List Int) : DurState :=
  if obs = [] then ⟨C, D⟩
  else ⟨C ++ [(project, tab (bucketCount obs))], D ++ [(project, obs.sum)]⟩

/-- The projects of the mapping that contribute at least one observation to
the branch's histogram. -/
def durFiltered (branch : String) (data : Data) : Data :=
  data.filter fun pr => !(successDurations branch pr.2).isEmpty

/-- The `counts` dict of the duration aggregation in closed form. -/
def closedCounts (branch : String) (data : Data) : List (String × List (Bound × Nat)) :=
  (durFiltered branch data).map fun pr =>
    (pr.1, tab (bucketCount (successDurations branch pr.2)))

/-- The `durations` dict of the duration aggregation in closed form. -/
def closedDurs (branch : String) (data : Data) : List (String × Int) :=
  (durFiltered branch data).map fun pr => (pr.1, (successDurations branch pr.2).sum)

/-! ## Dict lemmas -/

section DictLemmas

variable {α β γ : Type} [DecidableEq α]

@[simp] theorem getA_nil (a : α) : getA ([] : List (α × β)) a = none := rfl

@[simp] theorem getA_setA_self (a : α) (v : β) (l : List (α × β)) :
    getA (setA a v l) a = some v := by
  induction l with
  | nil => simp [setA, getA]
  | cons p rest ih =>
    obtain ⟨k, w⟩ := p
    by_cases h : k = a <;> simp [setA, getA, h, ih]

theorem getA_setA_ne (a b : α) (v : β) (l : List (α × β)) (h : a ≠ b) :
    getA (setA a v l) b = getA l b := by
  induction l with
  | nil => simp [setA, getA, h]
  | cons p rest ih =>
    obtain ⟨k, w⟩ := p
    by_cases hk : k = a
    · subst hk
      simp [setA, getA, h]
    · simp [setA, getA, hk, ih]

theorem setA_setA (a : α) (v w : β) (l : List (α × β)) :
    setA a v (setA a w l) = setA a v l := by
  induction l with
  | nil => simp [setA]
  | cons p rest ih =>
    obtain ⟨k, u⟩ := p
    by_cases hk : k = a <;> simp [setA, hk, ih]

theorem setA_of_not_mem (a : α) (v : β) (l : List (α × β)) (h : a ∉ keysA l) :
    setA a v l = l ++ [(a, v)] := by
  induction l with
  | nil => rfl
  | cons p rest ih =>
    obtain ⟨k, w⟩ := p
    simp only [keysA, List.map_cons, List.mem_cons] at h
    push_neg at h
    simp [setA, Ne.symm h.1, ih (by simpa [keysA] using h.2)]

theorem getA_eq_none_of_not_mem (l : List (α × β)) (a : α) (h : a ∉ keysA l) :
    getA l a = none := by
  induction l with
  | nil => rfl
  | cons p rest ih =>
    obtain ⟨k, w⟩ := p
    simp only [keysA, List.map_cons, List.mem_cons] at h
    push_neg at h
    simp [getA, Ne.symm h.1, ih (by simpa [keysA] using h.2)]

theorem getA_append (l₁ l₂ : List (α × β)) (a : α) :
    getA (l₁ ++ l₂) a = (getA l₁ a).or (getA l₂ a) := by
  induction l₁ with
  | nil => simp [getA]
  | cons p rest ih =>
    obtain ⟨k, w⟩ := p
    by_cases hk : k = a <;> simp [getA, hk, ih]

theorem mem_of_getA_eq_some (l : List (α × β)) (a : α) (v : β) (h : getA l a = some v) :
    (a, v) ∈ l := by
  induction l with
  | nil => simp [getA] at h
  | cons p rest ih =>
    obtain ⟨k, w⟩ := p
    by_cases hk : k = a
    · rw [getA, if_pos hk] at h
      injection h with h
      subst h
      subst hk
      exact List.mem_cons_self _ _
    · rw [getA, if_neg hk] at h
      exact List.mem_cons_of_mem _ (ih h)

omit [DecidableEq α] in
theorem keysA_append (l₁ l₂ : List (α × β)) : keysA (l₁ ++ l₂) = keysA l₁ ++ keysA l₂ := by
  simp [keysA]

theorem getA_value_of_nodup (l : List (α × β)) (a : α) (v : β)
    (hN : (keysA l).Nodup) (hmem : (a, v) ∈ l) : getA l a = some v := by
  induction l with
  | nil => simp at hmem
  | cons p rest ih =>
    obtain ⟨k, w⟩ := p
    simp only [keysA, List.map_cons, List.nodup_cons] at hN
    rcases List.mem_cons.mp hmem with h | h
    · injection h with h1 h2
      subst h1
      subst h2
      simp [getA]
    · have hka : k ≠ a := by
        rintro rfl
        exact hN.1 (List.mem_map.mpr ⟨(k, v), h, rfl⟩)
      simp only [getA, if_neg hka]
      exact ih hN.2 h

theorem value_unique_of_nodup (l : List (α × β)) (a : α) (v₁ v₂ : β)
    (hN : (keysA l).Nodup) (h₁ : (a, v₁) ∈ l) (h₂ : (a, v₂) ∈ l) : v₁ = v₂ := by
  have e₁ := getA_value_of_nodup l a v₁ hN h₁
  have e₂ := getA_value_of_nodup l a v₂ hN h₂
  rw [e₁] at e₂
  exact Option.some_inj.mp e₂

end DictLemmas

/-! ## The sticky error memory: `_errored` -/

/-- `erroredStep` in closed form: the errors are the records failed-or-remembered,
and the memory at the project is replaced by their ids. -/
theorem erroredStep_eq (seen : Seen) (project : String) (pipelines : List Pipeline) :
    erroredStep seen project pipelines =
      (pipelines.filter fun p =>
          p.status == "failed" || ((getA seen project).getD []).contains p.id,
       setA project
         ((pipelines.filter fun p =>
             p.status == "failed" || ((getA seen project).getD []).contains p.id).map (·.id))
         seen) := by
  unfold erroredStep
  simp only [getA_setA_self, Option.getD_some, setA_setA]

/-- Setting the trailing key of a dict rewrites its value in place. -/
theorem setA_append_last {α β : Type} [DecidableEq α] (a : α) (v w : β)
    (l : List (α × β)) (h : a ∉ keysA l) :
    setA a v (l ++ [(a, w)]) = l ++ [(a, v)] := by
  induction l with
  | nil => simp [setA]
  | cons p rest ih =>
    obtain ⟨k, u⟩ := p
    simp only [keysA, List.map_cons, List.mem_cons] at h
    push_neg at h
    simp [setA, Ne.symm h.1, ih (by simpa [keysA] using h.2)]

/-- A dict ending in the key `a` yields the trailing value at `a` when `a` is
not among the earlier keys. -/
theorem getA_append_last {α β : Type} [DecidableEq α] (a : α) (v : β)
    (l : List (α × β)) (h : a ∉ keysA l) :
    getA (l ++ [(a, v)]) a = some v := by
  rw [getA_append, getA_eq_none_of_not_mem l a h]
  simp [getA]

/-! ## Tabulated dicts over the bucket ladder -/

/-- The bucket ladder has distinct bounds. -/
theorem durationBuckets_nodup : durationBuckets.Nodup := by decide

/-- Reading a tabulated dict at a tabulated key. -/
theorem getA_tab_of_mem {α β : Type} [DecidableEq α] (L : List α) (f : α → β) (a : α)
    (ha : a ∈ L) : getA (L.map fun x => (x, f x)) a = some (f a) := by
  induction L with
  | nil => simp at ha
  | cons x xs ih =>
    by_cases h : x = a
    · subst h
      simp [getA]
    · rcases List.mem_cons.mp ha with h' | h'
      · exact absurd h'.symm h
      · simp [getA, h, ih h']

/-- Writing a tabulated dict at a tabulated key updates the tabulated value. -/
theorem setA_tab_of_mem {α β : Type} [DecidableEq α] (L : List α) (f : α → β) (a : α)
    (v : β) (hN : L.Nodup) (ha : a ∈ L) :
    setA a v (L.map fun x => (x, f x)) =
      L.map fun x => (x, if x = a then v else f x) := by
  induction L with
  | nil => simp at ha
  | cons x xs ih =>
    rcases List.nodup_cons.mp hN with ⟨hx, hN'⟩
    by_cases h : x = a
    · subst h
      simp only [List.map_cons, setA, if_pos rfl, if_pos trivial, List.cons.injEq, true_and]
      apply List.map_congr_left
      intro y hy
      have : y ≠ x := fun hc => hx (hc ▸ hy)
      simp [this]
    · rcases List.mem_cons.mp ha with h' | h'
      · exact absurd h'.symm h
      · simp only [List.map_cons, setA, if_neg h, List.cons.injEq]
        exact ⟨trivial, ih hN' h'⟩

/-- `getA` on the bucket table. -/
theorem getA_tab (f : Bound → Nat) (b : Bound) (hb : b ∈ durationBuckets) :
    getA (tab f) b = some (f b) :=
  getA_tab_of_mem durationBuckets f b hb

/-- The initialisation loop is the identity on a full bucket table. -/
theorem foldl_init_subset (K : List Bound) (f : Bound → Nat)
    (hK : ∀ b ∈ K, b ∈ durationBuckets) :
    K.foldl (fun bc b => setA b ((getA bc b).getD 0) bc) (tab f) = tab f := by
  induction K with
  | nil => rfl
  | cons k ks ih =>
    have hk := hK k (List.mem_cons_self _ _)
    rw [List.foldl_cons, getA_tab f k hk]
    simp only [Option.getD_some]
    rw [show setA k (f k) (tab f) =
        durationBuckets.map fun x => (x, if x = k then f k else f x) from
      setA_tab_of_mem durationBuckets f k (f k) durationBuckets_nodup hk]
    have htab : (durationBuckets.map fun x => (x, if x = k then f k else f x)) = tab f := by
      unfold tab
      apply List.map_congr_left
      intro b _
      by_cases hbk : b = k <;> simp [hbk]
    rw [htab]
    exact ih fun b hb => hK b (List.mem_cons_of_mem _ hb)

/-- `initBuckets` is the identity on a full bucket table. -/
theorem initBuckets_tab (f : Bound → Nat) : initBuckets (tab f) = tab f :=
  foldl_init_subset durationBuckets f fun _ hb => hb

/-- `initBuckets` on an empty dict builds the all-zero full bucket table. -/
theorem initBuckets_nil : initBuckets [] = tab fun _ => 0 := by rfl

/-- The increment loop over a set of distinct ladder buckets adds one to
exactly those buckets of the table. -/
theorem foldl_incr_subset (K : List Bound) (f : Bound → Nat) (hN : K.Nodup)
    (hK : ∀ b ∈ K, b ∈ durationBuckets) :
    K.foldl (fun bc b => setA b ((getA bc b).getD 0 + 1) bc) (tab f) =
      tab fun b => f b + if b ∈ K then 1 else 0 := by
  induction K generalizing f with
  | nil => simp [tab]
  | cons k ks ih =>
    rcases List.nodup_cons.mp hN with ⟨hkks, hN'⟩
    have hk := hK k (List.mem_cons_self _ _)
    rw [List.foldl_cons, getA_tab f k hk]
    simp only [Option.getD_some]
    rw [show setA k (f k + 1) (tab f) =
        durationBuckets.map fun x => (x, if x = k then f k + 1 else f x) from
      setA_tab_of_mem durationBuckets f k (f k + 1) durationBuckets_nodup hk]
    rw [show (durationBuckets.map fun x => (x, if x = k then f k + 1 else f x)) =
        tab fun x => if x = k then f k + 1 else f x from rfl]
    rw [ih _ hN' fun b hb => hK b (List.mem_cons_of_mem _ hb)]
    unfold tab
    apply List.map_congr_left
    intro b _
    by_cases hbk : b = k
    · subst hbk
      simp [hkks]
    · simp [hbk, List.mem_cons]

/-- `observeBuckets` adds one to exactly the buckets whose bound is strictly
greater than the observed duration. -/
theorem observeBuckets_tab (d : Int) (f : Bound → Nat) :
    observeBuckets d (tab f) =
      tab fun b => f b + if Bound.below d b then 1 else 0 := by
  unfold observeBuckets find_applicable_buckets find_applicable_bucketsIn
  rw [foldl_incr_subset _ f (durationBuckets_nodup.filter _)
    fun b hb => (List.mem_filter.mp hb).1]
  unfold tab
  apply List.map_congr_left
  intro b hb
  congr 1
  by_cases h : Bound.below d b
  · simp [List.mem_filter, hb, h]
  · simp [List.mem_filter, h]

/-- Appending one observation raises exactly the counts of the buckets above
it. -/
theorem bucketCount_append (obs : List Int) (d : Int) (b : Bound) :
    bucketCount (obs ++ [d]) b = bucketCount obs b + if Bound.below d b then 1 else 0 := by
  unfold bucketCount
  rw [List.filter_append, List.length_append]
  by_cases h : Bound.below d b <;> simp [h]

/-- Counting into the `+Inf` bucket counts every observation. -/
theorem bucketCount_inf (obs : List Int) : bucketCount obs Bound.inf = obs.length := by
  unfold bucketCount
  congr 1
  apply List.filter_eq_self.mpr
  intro d _
  rfl

/-- Counts are monotone along the ladder order. -/
theorem bucketCount_mono (obs : List Int) (b₁ b₂ : Bound)
    (h : ∀ d : Int, Bound.below d b₁ = true → Bound.below d b₂ = true) :
    bucketCount obs b₁ ≤ bucketCount obs b₂ := by
  unfold bucketCount
  rw [← List.countP_eq_length_filter, ← List.countP_eq_length_filter]
  exact List.countP_mono_left fun d _ hd => h d hd

/-! ## The branch tally: `gitlab_pipelines_total` -/

/-- `countBranch` unfolded over a cons. -/
theorem countBranch_cons (branch : String) (p : Pipeline) (ps : List Pipeline) :
    countBranch branch (p :: ps) =
      (if p.ref = branch then 1 else 0) + countBranch branch ps := by
  by_cases h : p.ref = branch <;>
    simp [countBranch, List.filter_cons, h, Nat.add_comm]

/-- The inner tally loop of `gitlab_pipelines_total`, run on a dict ending in
the project's entry, adds the number of matching records to that entry. -/
theorem countStep_fold (branch project : String) (C : List (String × Nat)) (n : Nat)
    (hC : project ∉ keysA C) (pipelines : List Pipeline) :
    pipelines.foldl (countStep branch project) (C ++ [(project, n)]) =
      C ++ [(project, n + countBranch branch pipelines)] := by
  induction pipelines generalizing n with
  | nil => simp [countBranch]
  | cons p ps ih =>
    rw [List.foldl_cons]
    by_cases h : p.ref = branch
    · have hstep : countStep branch project (C ++ [(project, n)]) p =
          C ++ [(project, n + 1)] := by
        unfold countStep
        rw [if_neg (by simpa using h), getA_append_last project n C hC]
        simpa using setA_append_last project (n + 1) n C hC
      rw [hstep, ih (n + 1), countBranch_cons, if_pos h, Nat.add_assoc]
    · have hstep : countStep branch project (C ++ [(project, n)]) p =
          C ++ [(project, n)] := by
        unfold countStep
        rw [if_pos (by simpa using h)]
      rw [hstep, ih n, countBranch_cons, if_neg h, Nat.zero_add]

/-- The per-branch loop of `gitlab_pipelines_total` in closed form: one entry
per project key of the mapping, in order, holding the number of records whose
ref equals the branch. -/
theorem totalsForBranch_fold (branch : String) (data : Data) (C : List (String × Nat))
    (hdisj : ∀ pr ∈ data, pr.1 ∉ keysA C) (hN : (data.map Prod.fst).Nodup) :
    data.foldl
        (fun counts pr =>
          pr.2.foldl (countStep branch pr.1) (setA pr.1 ((getA counts pr.1).getD 0) counts))
        C =
      C ++ data.map fun pr => (pr.1, countBranch branch pr.2) := by
  induction data generalizing C with
  | nil => simp
  | cons hd tl ih =>
    obtain ⟨project, pipelines⟩ := hd
    have hCp : project ∉ keysA C := hdisj _ (List.mem_cons_self _ _)
    have hN' : (tl.map Prod.fst).Nodup := (List.nodup_cons.mp (by simpa using hN)).2
    have hproj : project ∉ tl.map Prod.fst := (List.nodup_cons.mp (by simpa using hN)).1
    rw [List.foldl_cons]
    have h0 : setA project ((getA C project).getD 0) C = C ++ [(project, 0)] := by
      rw [getA_eq_none_of_not_mem _ _ hCp, setA_of_not_mem _ _ _ hCp]
      rfl
    rw [h0, countStep_fold branch project C 0 hCp pipelines]
    have hdisj' : ∀ pr ∈ tl,
        pr.1 ∉ keysA (C ++ [(project, 0 + countBranch branch pipelines)]) := by
      intro pr hpr
      rw [keysA_append]
      simp only [keysA, List.map_cons, List.map_nil, List.mem_append, List.mem_singleton]
      push_neg
      refine ⟨by simpa [keysA] using hdisj pr (List.mem_cons_of_mem _ hpr), ?_⟩
      intro hc
      exact hproj (hc ▸ List.mem_map.mpr ⟨pr, hpr, rfl⟩)
    rw [ih _ hdisj' hN']
    simp [List.append_assoc]

/-- `totalsForBranch` in closed form for a mapping with distinct project keys. -/
theorem totalsForBranch_eq (branch : String) (data : Data)
    (hN : (data.map Prod.fst).Nodup) :
    totalsForBranch branch data = data.map fun pr => (pr.1, countBranch branch pr.2) := by
  have h := totalsForBranch_fold branch data [] (by simp [keysA]) hN
  simpa [totalsForBranch] using h

/-- Every project key of the mapping yields, for every configured branch, the
entry `(countBranch, project, branch)` in `gitlab_pipelines_total`. -/
theorem totals_entry (data : Data) (branch project : String) (pipelines : List Pipeline)
    (hN : (data.map Prod.fst).Nodup) (hbr : branch ∈ BRANCHES)
    (hmem : (project, pipelines) ∈ data) :
    (countBranch branch pipelines, project, branch) ∈ gitlab_pipelines_total data := by
  unfold gitlab_pipelines_total
  refine List.mem_flatMap.mpr ⟨branch, hbr, ?_⟩
  rw [totalsForBranch_eq _ _ hN]
  exact List.mem_map.mpr ⟨(project, countBranch branch pipelines),
    List.mem_map.mpr ⟨(project, pipelines), hmem, rfl⟩, rfl⟩

/-! ## `errored` over the whole mapping -/

/-- `_errored` leaves the memory of other projects untouched. -/
theorem erroredStep_getA_ne (seen : Seen) (project other : String)
    (pipelines : List Pipeline) (h : project ≠ other) :
    getA (erroredStep seen project pipelines).2 other = getA seen other := by
  rw [erroredStep_eq]
  exact getA_setA_ne project other _ seen h

/-- The fold of `errored`, with the original memory remembered: provided the
evolving memory still agrees with the original on every unprocessed project
key and the keys are distinct, the result maps each project to the errors
`_errored` computes from the original memory. -/
theorem errored_fold_closed (data : Data) (acc : Data) (s seen : Seen)
    (hagree : ∀ pr ∈ data, getA s pr.1 = getA seen pr.1)
    (hN : (data.map Prod.fst).Nodup) :
    (data.foldl
        (fun acc pr =>
          let r := erroredStep acc.2 pr.1 pr.2
          (acc.1 ++ [(pr.1, r.1)], r.2))
        (acc, s)).1 =
      acc ++ data.map fun pr => (pr.1, (erroredStep seen pr.1 pr.2).1) := by
  induction data generalizing acc s with
  | nil => simp
  | cons hd tl ih =>
    obtain ⟨project, pipelines⟩ := hd
    have hagreehd : getA s project = getA seen project := hagree _ (List.mem_cons_self _ _)
    have herr : (erroredStep s project pipelines).1 =
        (erroredStep seen project pipelines).1 := by
      rw [erroredStep_eq, erroredStep_eq, hagreehd]
    have hproj : project ∉ tl.map Prod.fst := (List.nodup_cons.mp (by simpa using hN)).1
    have hagree' : ∀ pr ∈ tl,
        getA (erroredStep s project pipelines).2 pr.1 = getA seen pr.1 := by
      intro pr hpr
      have hne : project ≠ pr.1 := by
        intro hc
        exact hproj (hc ▸ List.mem_map.mpr ⟨pr, hpr, rfl⟩)
      rw [erroredStep_getA_ne s project pr.1 pipelines hne]
      exact hagree pr (List.mem_cons_of_mem _ hpr)
    rw [List.foldl_cons]
    have := ih (acc ++ [(project, (erroredStep s project pipelines).1)])
      (erroredStep s project pipelines).2 hagree'
      ((List.nodup_cons.mp (by simpa using hN)).2)
    simp only [List.map_cons] at this ⊢
    rw [this, herr]
    simp [List.append_assoc]

/-- `errored` in closed form for a mapping with distinct project keys. -/
theorem errored_closed (seen : Seen) (data : Data) (hN : (data.map Prod.fst).Nodup) :
    (errored seen data).1 = data.map fun pr => (pr.1, (erroredStep seen pr.1 pr.2).1) := by
  have h := errored_fold_closed data [] seen seen (fun _ _ => rfl) hN
  simpa [errored] using h

/-- `errored` keeps every project key of its input, in order. -/
theorem errored_keys (seen : Seen) (data : Data) (hN : (data.map Prod.fst).Nodup) :
    (errored seen data).1.map Prod.fst = data.map Prod.fst := by
  rw [errored_closed seen data hN]
  simp

/-! ## The duration histogram: `gitlab_pipeline_duration_seconds` -/

/-- Reading a keyed map at the key of one of its elements. -/
theorem getA_map_key {α β γ : Type} [DecidableEq α] (l : List γ) (key : γ → α)
    (val : γ → β) (x : γ) (hx : x ∈ l) (hN : (l.map key).Nodup) :
    getA (l.map fun y => (key y, val y)) (key x) = some (val x) := by
  induction l with
  | nil => simp at hx
  | cons y ys ih =>
    rw [List.map_cons] at hN
    rcases List.nodup_cons.mp hN with ⟨hy, hN'⟩
    by_cases h : key y = key x
    · rcases List.mem_cons.mp hx with hxy | hxs
      · subst hxy
        simp [getA]
      · exact absurd (h ▸ List.mem_map.mpr ⟨x, hxs, rfl⟩) hy
    · rcases List.mem_cons.mp hx with hxy | hxs
      · exact absurd (hxy ▸ rfl) h
      · simp only [List.map_cons, getA, if_neg h]
        exact ih hxs hN'

/-- `successDurations` over a cons: the head contributes `obsOf`. -/
theorem successDurations_cons (branch : String) (p : Pipeline) (ps : List Pipeline) :
    successDurations branch (p :: ps) = obsOf branch p ++ successDurations branch ps := by
  unfold successDurations obsOf calculate_duration
  by_cases href : p.ref = branch <;> by_cases hstatus : p.status = "success" <;>
    simp [List.filter_cons, List.filterMap_cons, href, hstatus, Except.toOption]

/-- `durStep` on a record with a defined duration, in closed form. -/
theorem durStep_ok (branch project : String) (st : DurState) (p : Pipeline) (d : Int)
    (href : p.ref = branch) (hdur : calculate_duration p = .ok d) :
    durStep branch project st p =
      { durations := setA project ((getA st.durations project).getD 0 + d) st.durations,
        counts := setA project
          (observeBuckets d (initBuckets ((getA st.counts project).getD []))) st.counts } := by
  unfold durStep
  rw [if_neg (by simp [href]), hdur]
  simp only [getA_setA_self, Option.getD_some, setA_setA]

/-- `durStep` skips records of other branches and records without a defined
duration. -/
theorem durStep_skip (branch project : String) (st : DurState) (p : Pipeline)
    (h : p.ref ≠ branch ∨ calculate_duration p = .error .incomplete) :
    durStep branch project st p = st := by
  unfold durStep
  by_cases href : p.ref = branch
  · rcases h with h | h
    · exact absurd href h
    · rw [if_neg (by simp [href]), h]
  · rw [if_pos href]

/-- A single observation's bucket counts. -/
theorem bucketCount_singleton (d : Int) (b : Bound) :
    bucketCount [d] b = if Bound.below d b then 1 else 0 := by
  by_cases h : Bound.below d b <;> simp [bucketCount, List.filter_cons, h]

/-- The loop state before any observation. -/
theorem durStateFor_nil (C : List (String × List (Bound × Nat)))
    (D : List (String × Int)) (project : String) :
    durStateFor C D project [] = ⟨C, D⟩ := by
  simp [durStateFor]

/-- The loop state once at least one observation exists. -/
theorem durStateFor_ne_nil (C : List (String × List (Bound × Nat)))
    (D : List (String × Int)) (project : String) (obs : List Int) (h : obs ≠ []) :
    durStateFor C D project obs =
      ⟨C ++ [(project, tab (bucketCount obs))], D ++ [(project, obs.sum)]⟩ := by
  simp [durStateFor, h]

/-- One `durStep` advances the loop state by the record's observations. -/
theorem durStep_durStateFor (branch project : String)
    (C : List (String × List (Bound × Nat))) (D : List (String × Int))
    (obs : List Int) (hC : project ∉ keysA C) (hD : project ∉ keysA D) (p : Pipeline) :
    durStep branch project (durStateFor C D project obs) p =
      durStateFor C D project (obs ++ obsOf branch p) := by
  by_cases href : p.ref = branch
  · cases hdur : calculate_duration p with
    | error e =>
      have hobs : obsOf branch p = [] := by
        cases e
        simp [obsOf, href, hdur]
      rw [hobs, List.append_nil]
      exact durStep_skip branch project _ p (Or.inr (by cases e; exact hdur))
    | ok d =>
      have hobs : obsOf branch p = [d] := by simp [obsOf, href, hdur]
      rw [hobs, durStep_ok branch project _ p d href hdur]
      by_cases hnil : obs = []
      · subst hnil
        rw [durStateFor_nil, List.nil_append,
          durStateFor_ne_nil C D project [d] (List.cons_ne_nil d [])]
        dsimp only
        have h1 : getA D project = none := getA_eq_none_of_not_mem D project hD
        have h2 : getA C project = none := getA_eq_none_of_not_mem C project hC
        refine congrArg₂ DurState.mk ?_ ?_
        · rw [h2]
          simp only [Option.getD_none]
          rw [initBuckets_nil, observeBuckets_tab, setA_of_not_mem _ _ _ hC]
          have : (tab fun b => 0 + if Bound.below d b then 1 else 0) =
              tab (bucketCount [d]) := by
            unfold tab
            apply List.map_congr_left
            intro b _
            simp [bucketCount_singleton]
          rw [this]
        · rw [h1]
          simp only [Option.getD_none]
          rw [setA_of_not_mem _ _ _ hD]
          simp
      · rw [durStateFor_ne_nil C D project obs hnil,
          durStateFor_ne_nil C D project (obs ++ [d]) (by simp)]
        dsimp only
        refine congrArg₂ DurState.mk ?_ ?_
        · rw [getA_append_last project _ C hC]
          simp only [Option.getD_some]
          rw [initBuckets_tab, observeBuckets_tab,
            setA_append_last project _ _ C hC]
          have : (tab fun b =>
                bucketCount obs b + if Bound.below d b then 1 else 0) =
              tab (bucketCount (obs ++ [d])) := by
            unfold tab
            apply List.map_congr_left
            intro b _
            rw [bucketCount_append]
          rw [this]
        · rw [getA_append_last project _ D hD]
          simp only [Option.getD_some]
          rw [setA_append_last project _ _ D hD]
          simp
  · have hobs : obsOf branch p = [] := by simp [obsOf, href]
    rw [hobs, List.append_nil]
    exact durStep_skip branch project _ p (Or.inl href)

/-- Folding a batch of records through `durStep` advances the loop state by
all their observations. -/
theorem durStep_foldl (branch project : String)
    (C : List (String × List (Bound × Nat))) (D : List (String × Int))
    (hC : project ∉ keysA C) (hD : project ∉ keysA D)
    (obs₀ : List Int) (pipelines : List Pipeline) :
    pipelines.foldl (durStep branch project) (durStateFor C D project obs₀) =
      durStateFor C D project (obs₀ ++ successDurations branch pipelines) := by
  induction pipelines generalizing obs₀ with
  | nil => simp [successDurations]
  | cons p ps ih =>
    rw [List.foldl_cons, durStep_durStateFor branch project C D obs₀ hC hD p,
      ih (obs₀ ++ obsOf branch p), successDurations_cons, List.append_assoc]

/-- The outer fold of the duration aggregation in closed form: the dicts end
with one entry per contributing project, in input order. -/
theorem dur_outer_fold (branch : String) (data : Data)
    (C : List (String × List (Bound × Nat))) (D : List (String × Int))
    (hdisjC : ∀ pr ∈ data, pr.1 ∉ keysA C) (hdisjD : ∀ pr ∈ data, pr.1 ∉ keysA D)
    (hN : (data.map Prod.fst).Nodup) :
    data.foldl (fun st pr => pr.2.foldl (durStep branch pr.1) st) ⟨C, D⟩ =
      ⟨C ++ closedCounts branch data, D ++ closedDurs branch data⟩ := by
  induction data generalizing C D with
  | nil => simp [closedCounts, closedDurs, durFiltered]
  | cons hd tl ih =>
    obtain ⟨project, pipelines⟩ := hd
    rw [List.map_cons] at hN
    have hCp : project ∉ keysA C := hdisjC _ (List.mem_cons_self _ _)
    have hDp : project ∉ keysA D := hdisjD _ (List.mem_cons_self _ _)
    have hproj : project ∉ tl.map Prod.fst := (List.nodup_cons.mp hN).1
    have hN' := (List.nodup_cons.mp hN).2
    rw [List.foldl_cons]
    rw [show (pipelines.foldl (durStep branch project) ⟨C, D⟩ : DurState) =
        durStateFor C D project (successDurations branch pipelines) from by
      rw [← durStateFor_nil C D project,
        durStep_foldl branch project C D hCp hDp [] pipelines, List.nil_append]]
    by_cases hobs : successDurations branch pipelines = []
    · rw [hobs, durStateFor_nil]
      rw [ih C D (fun pr hpr => hdisjC pr (List.mem_cons_of_mem _ hpr))
        (fun pr hpr => hdisjD pr (List.mem_cons_of_mem _ hpr)) hN']
      unfold closedCounts closedDurs durFiltered
      simp [List.filter_cons, hobs]
    · rw [durStateFor_ne_nil C D project (successDurations branch pipelines) hobs]
      have hkeyC : ∀ pr ∈ tl, pr.1 ∉
          keysA (C ++ [(project, tab (bucketCount (successDurations branch pipelines)))]) := by
        intro pr hpr
        rw [keysA_append]
        simp only [keysA, List.map_cons, List.map_nil, List.mem_append, List.mem_singleton]
        push_neg
        refine ⟨by simpa [keysA] using hdisjC pr (List.mem_cons_of_mem _ hpr), ?_⟩
        intro hc
        exact hproj (hc ▸ List.mem_map.mpr ⟨pr, hpr, rfl⟩)
      have hkeyD : ∀ pr ∈ tl, pr.1 ∉
          keysA (D ++ [(project, (successDurations branch pipelines).sum)]) := by
        intro pr hpr
        rw [keysA_append]
        simp only [keysA, List.map_cons, List.map_nil, List.mem_append, List.mem_singleton]
        push_neg
        refine ⟨by simpa [keysA] using hdisjD pr (List.mem_cons_of_mem _ hpr), ?_⟩
        intro hc
        exact hproj (hc ▸ List.mem_map.mpr ⟨pr, hpr, rfl⟩)
      rw [ih _ _ hkeyC hkeyD hN']
      unfold closedCounts closedDurs durFiltered
      simp [List.filter_cons, hobs, List.append_assoc]

/-- The keys of the contributing projects stay distinct. -/
theorem durFiltered_keys_nodup (branch : String) (data : Data)
    (hN : (data.map Prod.fst).Nodup) :
    ((durFiltered branch data).map Prod.fst).Nodup :=
  hN.sublist (List.Sublist.map Prod.fst (List.filter_sublist data))

/-- `gitlab_pipeline_duration_seconds` in closed form: per branch, one entry
per project with at least one matching successful record, in input order,
holding the full bucket table of strict-inequality counts and the duration
sum. -/
theorem duration_closed (data : Data) (hN : (data.map Prod.fst).Nodup) :
    gitlab_pipeline_duration_seconds data =
      BRANCHES.flatMap fun branch =>
        (durFiltered branch data).map fun pr =>
          (tab (bucketCount (successDurations branch pr.2)),
           (successDurations branch pr.2).sum, pr.1, branch) := by
  unfold gitlab_pipeline_duration_seconds
  refine congrArg _ (funext fun branch => ?_)
  show ((data.foldl (fun st pr => pr.2.foldl (durStep branch pr.1) st)
      (⟨[], []⟩ : DurState)).counts.map fun e =>
        (durationBuckets.map fun b => (b, (getA e.2 b).getD 0),
         (getA (data.foldl (fun st pr => pr.2.foldl (durStep branch pr.1) st)
            (⟨[], []⟩ : DurState)).durations e.1).getD 0, e.1, branch)) = _
  rw [dur_outer_fold branch data [] [] (by simp [keysA]) (by simp [keysA]) hN]
  simp only [List.nil_append]
  unfold closedCounts closedDurs
  rw [List.map_map]
  apply List.map_congr_left
  intro pr hpr
  simp only [Function.comp_apply]
  have hbc : (durationBuckets.map fun b =>
      (b, (getA (tab (bucketCount (successDurations branch pr.2))) b).getD 0)) =
      tab (bucketCount (successDurations branch pr.2)) := by
    have h1 : (durationBuckets.map fun b =>
        (b, (getA (tab (bucketCount (successDurations branch pr.2))) b).getD 0)) =
        durationBuckets.map fun b => (b, bucketCount (successDurations branch pr.2) b) :=
      List.map_congr_left fun b hb => by
        rw [getA_tab (bucketCount (successDurations branch pr.2)) b hb]
        rfl
    rw [h1]
    rfl
  have hdur : getA ((durFiltered branch data).map fun y =>
      (y.1, (successDurations branch y.2).sum)) pr.1 =
      some ((successDurations branch pr.2).sum) := by
    have h := getA_map_key (durFiltered branch data) Prod.fst
      (fun y => (successDurations branch y.2).sum) pr hpr
      (durFiltered_keys_nodup branch data hN)
    simpa using h
  rw [hbc, hdur]
  rfl

/-- The ladder is sorted by the bound comparison. -/
theorem durationBuckets_sorted :
    List.Pairwise (fun a b => Bound.leB a b = true) durationBuckets := by
  decide

/-- A duration strictly below a bound is strictly below every larger bound. -/
theorem below_of_leB (b₁ b₂ : Bound) (d : Int) (hle : Bound.leB b₁ b₂ = true)
    (hb : Bound.below d b₁ = true) : Bound.below d b₂ = true := by
  cases b₁ with
  | fin m =>
    cases b₂ with
    | fin n =>
      simp only [Bound.leB, decide_eq_true_eq] at hle
      simp only [Bound.below, decide_eq_true_eq] at hb ⊢
      omega
    | inf => rfl
  | inf =>
    cases b₂ with
    | fin n => simp [Bound.leB] at hle
    | inf => rfl

/-- The last entry of a bucket table is the `+Inf` bucket. -/
theorem tab_getLast (f : Bound → Nat) :
    (tab f).getLast? = some (Bound.inf, f Bound.inf) := rfl

/-- C3 counterexample: a project whose only record for the branch is a failed
one (so the branch has records but no successful one) yields an *empty*
duration family — no all-zero histogram entry is emitted. -/
theorem c3_counterexample :
    gitlab_pipeline_duration_seconds [("org/app", [⟨1, "master", "failed", 0, 50⟩])] = [] ∧
    countBranch "master" [⟨1, "master", "failed", 0, 50⟩] = 1 := ⟨rfl, rfl⟩

/-- C3 amended: a project/branch pair with no successful record emits no
histogram entry at all (the entry is omitted, not all-zero); every entry that
is emitted carries the full bucket ladder. -/
theorem c3_no_success_entry_omitted (data : Data) (branch project : String)
    (pipelines : List Pipeline) (hN : (data.map Prod.fst).Nodup)
    (hmem : (project, pipelines) ∈ data)
    (hnone : successDurations branch pipelines = []) :
    (∀ entry ∈ gitlab_pipeline_duration_seconds data,
        ¬(entry.2.2.1 = project ∧ entry.2.2.2 = branch)) ∧
    ∀ entry ∈ gitlab_pipeline_duration_seconds data,
        entry.1.map Prod.fst = durationBuckets := by
  rw [duration_closed data hN]
  constructor
  · rintro entry hentry ⟨hproj, hbranch⟩
    obtain ⟨b, hb, hentry2⟩ := List.mem_flatMap.mp hentry
    obtain ⟨pr, hpr, hpreq⟩ := List.mem_map.mp hentry2
    have h1 : pr.1 = project := by
      rw [← hpreq] at hproj
      exact hproj
    have h2 : b = branch := by
      rw [← hpreq] at hbranch
      exact hbranch
    have hprdata : pr ∈ data := (List.mem_filter.mp hpr).1
    have hpred := (List.mem_filter.mp hpr).2
    have hval : pr.2 = pipelines := by
      refine value_unique_of_nodup data project pr.2 pipelines hN ?_ hmem
      rw [← h1]
      exact Prod.mk.eta.symm ▸ hprdata
    rw [h2, hval, hnone] at hpred
    simp at hpred
  · intro entry hentry
    obtain ⟨b, hb, hentry2⟩ := List.mem_flatMap.mp hentry
    obtain ⟨pr, hpr, hpreq⟩ := List.mem_map.mp hentry2
    rw [← hpreq]
    exact rfl

/-- C3 amended, witness: at the counterexample input the (nonexistent) entries
vacuously satisfy both parts. -/
theorem c3_no_success_entry_omitted_witness :
    (∀ entry ∈ gitlab_pipeline_duration_seconds
        [("org/app", [⟨1, "master", "failed", 0, 50⟩])],
        ¬(entry.2.2.1 = "org/app" ∧ entry.2.2.2 = "master")) ∧
    ∀ entry ∈ gitlab_pipeline_duration_seconds
        [("org/app", [⟨1, "master", "failed", 0, 50⟩])],
        entry.1.map Prod.fst = durationBuckets :=
  c3_no_success_entry_omitted [("org/app", [⟨1, "master", "failed", 0, 50⟩])]
    "master" "org/app" [⟨1, "master", "failed", 0, 50⟩]
    (by decide) (by decide) (by decide)

/-- C4 counterexample: for a single successful record of duration exactly 180
seconds, the emitted bucket-180 count is 0, while the claim's cumulative
less-or-equal reading demands 1 — an observation equal to a bucket's bound is
not counted in that bucket. -/
theorem c4_counterexample :
    (gitlab_pipeline_duration_seconds
        [("org/app", [⟨1, "master", "success", 0, 180⟩])]).map (fun e => e.1.head?) =
      [some (Bound.fin 180, 0)] ∧
    bucketCountLE [180] 180 = 1 := ⟨rfl, rfl⟩

/-- C4 amended: each emitted bucket's count equals the number of observed
durations *strictly less than* the bucket's bound (`bucketCount`); an
observation exactly equal to a finite bound is excluded from that bucket. -/
theorem c4_bucket_counts_strictly_below (data : Data) (branch project : String)
    (pipelines : List Pipeline) (hN : (data.map Prod.fst).Nodup)
    (hbr : branch ∈ BRANCHES) (hmem : (project, pipelines) ∈ data)
    (hobs : successDurations branch pipelines ≠ []) :
    (tab (bucketCount (successDurations branch pipelines)),
     (successDurations branch pipelines).sum, project, branch) ∈
      gitlab_pipeline_duration_seconds data := by
  rw [duration_closed data hN]
  refine List.mem_flatMap.mpr ⟨branch, hbr, ?_⟩
  refine List.mem_map.mpr ⟨(project, pipelines), ?_, rfl⟩
  refine List.mem_filter.mpr ⟨hmem, ?_⟩
  simp [hobs]

/-- C4 amended, witness: the single 180-second observation yields the entry
with the strict-inequality bucket table. -/
theorem c4_bucket_counts_strictly_below_witness :
    (tab (bucketCount (successDurations "master" [⟨1, "master", "success", 0, 180⟩])),
     (successDurations "master" [⟨1, "master", "success", 0, 180⟩]).sum,
     "org/app", "master") ∈
      gitlab_pipeline_duration_seconds [("org/app", [⟨1, "master", "success", 0, 180⟩])] :=
  c4_bucket_counts_strictly_below [("org/app", [⟨1, "master", "success", 0, 180⟩])]
    "master" "org/app" [⟨1, "master", "success", 0, 180⟩]
    (by decide) (by decide) (by decide) (by decide)

/-- C5: the buckets incremented for a duration are exactly those whose bound is
strictly greater than it; on the spec's concrete example (`[180, 300, 600,
+Inf]`, duration 250) the applicable buckets are exactly 300, 600, `+Inf`, and
the emitted counts for a single 250-second observation give bucket 180 the
count 0 and bucket 300 the count 1. -/
theorem c5_strictly_greater_buckets (d : Int) (f : Bound → Nat) (bs : List Bound) :
    find_applicable_bucketsIn bs d = bs.filter (fun b => Bound.below d b) ∧
    observeBuckets d (tab f) =
      (tab fun b => f b + if Bound.below d b then 1 else 0) ∧
    find_applicable_bucketsIn [Bound.fin 180, Bound.fin 300, Bound.fin 600, Bound.inf]
        250 = [Bound.fin 300, Bound.fin 600, Bound.inf] ∧
    (gitlab_pipeline_duration_seconds
        [("org/app", [⟨1, "master", "success", 0, 250⟩])]).map (fun e => e.1.take 2) =
      [[(Bound.fin 180, 0), (Bound.fin 300, 1)]] :=
  ⟨rfl, observeBuckets_tab d f, rfl, rfl⟩

/-- C8: every emitted histogram entry has bucket counts non-decreasing along
the ladder, and its last bucket is `+Inf` with count equal to the number of
successful, duration-defined records of that entry's project and branch. -/
theorem c8_monotone_and_inf_total (data : Data)
    (entry : List (Bound × Nat) × Int × String × String)
    (hN : (data.map Prod.fst).Nodup)
    (hentry : entry ∈ gitlab_pipeline_duration_seconds data) :
    List.Pairwise (fun x y : Bound × Nat => x.2 ≤ y.2) entry.1 ∧
    ∀ pipelines, (entry.2.2.1, pipelines) ∈ data →
      entry.1.getLast? =
        some (Bound.inf, (successDurations entry.2.2.2 pipelines).length) := by
  rw [duration_closed data hN] at hentry
  obtain ⟨b, hb, hentry2⟩ := List.mem_flatMap.mp hentry
  obtain ⟨pr, hpr, hpreq⟩ := List.mem_map.mp hentry2
  rw [← hpreq]
  dsimp only
  constructor
  · unfold tab
    rw [List.pairwise_map]
    refine durationBuckets_sorted.imp ?_
    intro b₁ b₂ hle
    exact bucketCount_mono _ b₁ b₂ fun dd hdd => below_of_leB b₁ b₂ dd hle hdd
  · intro pipelines hpip
    have hval : pr.2 = pipelines := by
      refine value_unique_of_nodup data pr.1 pr.2 pipelines hN ?_ hpip
      exact Prod.mk.eta.symm ▸ (List.mem_filter.mp hpr).1
    rw [← hval, tab_getLast, bucketCount_inf]

/-- C8 witness: the single 200-second observation yields an entry whose bucket
counts are non-decreasing and whose `+Inf` bucket counts the one successful
record. -/
theorem c8_monotone_and_inf_total_witness :
    List.Pairwise (fun x y : Bound × Nat => x.2 ≤ y.2)
      [(Bound.fin 180, 0), (Bound.fin 300, 1), (Bound.fin 600, 1), (Bound.fin 900, 1),
       (Bound.fin 1200, 1), (Bound.fin 1500, 1), (Bound.fin 1800, 1), (Bound.fin 2100, 1),
       (Bound.fin 2400, 1), (Bound.fin 2700, 1), (Bound.inf, 1)] ∧
    ∀ pipelines, ("org/app", pipelines) ∈
        ([("org/app", [⟨1, "master", "success", 0, 200⟩])] : Data) →
      ([(Bound.fin 180, 0), (Bound.fin 300, 1), (Bound.fin 600, 1), (Bound.fin 900, 1),
        (Bound.fin 1200, 1), (Bound.fin 1500, 1), (Bound.fin 1800, 1), (Bound.fin 2100, 1),
        (Bound.fin 2400, 1), (Bound.fin 2700, 1), (Bound.inf, 1)] :
          List (Bound × Nat)).getLast? =
        some (Bound.inf, (successDurations "master" pipelines).length) :=
  c8_monotone_and_inf_total [("org/app", [⟨1, "master", "success", 0, 200⟩])]
    ([(Bound.fin 180, 0), (Bound.fin 300, 1), (Bound.fin 600, 1), (Bound.fin 900, 1),
      (Bound.fin 1200, 1), (Bound.fin 1500, 1), (Bound.fin 1800, 1), (Bound.fin 2100, 1),
      (Bound.fin 2400, 1), (Bound.fin 2700, 1), (Bound.inf, 1)], 200, "org/app", "master")
    (by decide) (by decide)

/-- C6: `gitlab_pipelines_total` emits an entry for every (project, branch)
pair of the mapping, with value 0 when no record of the project has that
branch as its ref; `errored` preserves every project key, so the error family
emits an entry for every such pair as well (the in-progress family is the same
counting routine applied to the second fetch's mapping). -/
theorem c6_presence_of_all_pairs (data : Data) (branch project : String)
    (pipelines : List Pipeline) (seen : Seen)
    (hN : (data.map Prod.fst).Nodup) (hbr : branch ∈ BRANCHES)
    (hmem : (project, pipelines) ∈ data) :
    (countBranch branch pipelines, project, branch) ∈ gitlab_pipelines_total data ∧
    ((∀ p ∈ pipelines, p.ref ≠ branch) →
      (0, project, branch) ∈ gitlab_pipelines_total data) ∧
    (errored seen data).1.map Prod.fst = data.map Prod.fst ∧
    (countBranch branch (erroredStep seen project pipelines).1, project, branch) ∈
      gitlab_pipelines_total (errored seen data).1 := by
  refine ⟨totals_entry data branch project pipelines hN hbr hmem, ?_, ?_, ?_⟩
  · intro hnone
    have hzero : countBranch branch pipelines = 0 := by
      unfold countBranch
      rw [List.length_eq_zero]
      rw [List.filter_eq_nil_iff]
      intro p hp
      simp [hnone p hp]
    exact hzero ▸ totals_entry data branch project pipelines hN hbr hmem
  · exact errored_keys seen data hN
  · have hN' : ((errored seen data).1.map Prod.fst).Nodup := by
      rw [errored_keys seen data hN]
      exact hN
    refine totals_entry (errored seen data).1 branch project
      (erroredStep seen project pipelines).1 hN' hbr ?_
    rw [errored_closed seen data hN]
    exact List.mem_map.mpr ⟨(project, pipelines), hmem, rfl⟩

/-- C6 witness: a mapping with one project and no records yields the zero
entries for branch `"master"` in the totals family and in the error family,
and `errored` keeps the project key. -/
theorem c6_presence_of_all_pairs_witness :
    (countBranch "master" [], "org/app", "master") ∈
      gitlab_pipelines_total [("org/app", [])] ∧
    ((∀ p ∈ ([] : List Pipeline), p.ref ≠ "master") →
      (0, "org/app", "master") ∈ gitlab_pipelines_total [("org/app", [])]) ∧
    (errored [] [("org/app", [])]).1.map Prod.fst =
      ([("org/app", [])] : Data).map Prod.fst ∧
    (countBranch "master" (erroredStep [] "org/app" []).1, "org/app", "master") ∈
      gitlab_pipelines_total (errored [] [("org/app", [])]).1 :=
  c6_presence_of_all_pairs [("org/app", [])] "master" "org/app" [] []
    (by decide) (by decide) (by decide)

/-- C2: `_errored` classifies a record as an error iff its status is `"failed"`
or its id is already in the project's Failure Memory, and afterwards the
project's memory is exactly the ids of the errors of this batch (a replace). -/
theorem c2_errored_classification_and_replace (seen : Seen) (project : String)
    (pipelines : List Pipeline) :
    (∀ p : Pipeline,
        p ∈ (erroredStep seen project pipelines).1 ↔
          p ∈ pipelines ∧ (p.status = "failed" ∨ p.id ∈ (getA seen project).getD [])) ∧
    getA (erroredStep seen project pipelines).2 project =
      some ((erroredStep seen project pipelines).1.map (·.id)) := by
  rw [erroredStep_eq]
  refine ⟨fun p => ?_, by simp [getA_setA_self]⟩
  simp [List.mem_filter, List.elem_eq_mem]

/-- C1 counterexample: id 1 is classified as an error (status `"failed"`) and
enters the memory, but after a later `_errored` call whose batch does not
contain the id, the memory no longer holds it — the memory is not append-only. -/
theorem c1_counterexample :
    ((getA (erroredStep [] "proj" [⟨1, "master", "failed", 0, 10⟩]).2 "proj").getD
        []).contains 1 = true ∧
    ((getA (erroredStep ((erroredStep [] "proj" [⟨1, "master", "failed", 0, 10⟩]).2)
          "proj" []).2 "proj").getD []).contains 1 = false := by
  constructor <;> rfl

/-- C1 amended: an id already in the project's Failure Memory survives a later
`_errored` call provided the batch contains a record with that id: the record
is classified as an error and the id is written back to the memory.  (An id
absent from the batch is dropped, as the counterexample shows.) -/
theorem c1_sticky_for_represented_ids (seen : Seen) (project : String)
    (pipelines : List Pipeline) (p : Pipeline)
    (hp : p ∈ pipelines) (hid : p.id ∈ (getA seen project).getD []) :
    p ∈ (erroredStep seen project pipelines).1 ∧
    p.id ∈ (getA (erroredStep seen project pipelines).2 project).getD [] := by
  rw [erroredStep_eq]
  have hmem : p ∈ pipelines.filter fun q =>
      q.status == "failed" || ((getA seen project).getD []).contains q.id := by
    refine List.mem_filter.mpr ⟨hp, ?_⟩
    simp [List.elem_eq_mem]
    exact Or.inr hid
  refine ⟨hmem, ?_⟩
  simp only [getA_setA_self, Option.getD_some]
  exact List.mem_map.mpr ⟨p, hmem, rfl⟩

/-- C1 amended, witness: a previously failed id (1) retried into `"success"`
is still classified as an error and kept in the memory when its record is in
the batch. -/
theorem c1_sticky_for_represented_ids_witness :
    (⟨1, "master", "success", 0, 10⟩ : Pipeline) ∈
      (erroredStep [("proj", [1])] "proj" [⟨1, "master", "success", 0, 10⟩]).1 ∧
    (1 : Nat) ∈ (getA (erroredStep [("proj", [1])] "proj"
        [⟨1, "master", "success", 0, 10⟩]).2 "proj").getD [] := by
  have h := c1_sticky_for_represented_ids [("proj", [1])] "proj"
    [⟨1, "master", "success", 0, 10⟩] ⟨1, "master", "success", 0, 10⟩
    (List.mem_singleton.mpr rfl) (by decide)
  exact h

/-- C9: running `_errored` twice on the same batch (distinct ids) is
idempotent: the second run returns the same errors and leaves the memory
unchanged. -/
theorem c9_errored_idempotent (seen : Seen) (project : String) (pipelines : List Pipeline)
    (hN : (pipelines.map (·.id)).Nodup) :
    (erroredStep (erroredStep seen project pipelines).2 project pipelines).1 =
      (erroredStep seen project pipelines).1 ∧
    (erroredStep (erroredStep seen project pipelines).2 project pipelines).2 =
      (erroredStep seen project pipelines).2 := by
  have hinj := List.inj_on_of_nodup_map hN
  rw [erroredStep_eq, erroredStep_eq]
  simp only [getA_setA_self, Option.getD_some, setA_setA]
  have hfilter :
      (pipelines.filter fun p =>
        p.status == "failed" ||
          ((pipelines.filter fun q =>
              q.status == "failed" || ((getA seen project).getD []).contains q.id).map
            (·.id)).contains p.id) =
      (pipelines.filter fun p =>
        p.status == "failed" || ((getA seen project).getD []).contains p.id) := by
    apply List.filter_congr
    intro p hp
    by_cases hfail : p.status == "failed"
    · simp [hfail]
    · simp only [hfail, Bool.false_or, List.elem_eq_mem]
      rw [decide_eq_decide]
      constructor
      · intro hmem
        obtain ⟨r, hrE, hrid⟩ := List.mem_map.mp hmem
        obtain ⟨hrpipe, hrpred⟩ := List.mem_filter.mp hrE
        have hrp : r = p := hinj hrpipe hp hrid
        subst hrp
        simpa [hfail, List.elem_eq_mem] using hrpred
      · intro hmem
        exact List.mem_map.mpr
          ⟨p, List.mem_filter.mpr ⟨hp, by simp [hfail, List.elem_eq_mem, hmem]⟩, rfl⟩
  rw [hfilter]
  exact ⟨rfl, rfl⟩

/-- C9 witness: replaying a two-record batch (a failure and a success, distinct
ids) through `_errored` twice gives the same errors and the same memory. -/
theorem c9_errored_idempotent_witness :
    (erroredStep (erroredStep [] "proj"
        [⟨1, "master", "failed", 0, 10⟩, ⟨2, "master", "success", 0, 20⟩]).2 "proj"
        [⟨1, "master", "failed", 0, 10⟩, ⟨2, "master", "success", 0, 20⟩]).1 =
      (erroredStep [] "proj"
        [⟨1, "master", "failed", 0, 10⟩, ⟨2, "master", "success", 0, 20⟩]).1 ∧
    (erroredStep (erroredStep [] "proj"
        [⟨1, "master", "failed", 0, 10⟩, ⟨2, "master", "success", 0, 20⟩]).2 "proj"
        [⟨1, "master", "failed", 0, 10⟩, ⟨2, "master", "success", 0, 20⟩]).2 =
      (erroredStep [] "proj"
        [⟨1, "master", "failed", 0, 10⟩, ⟨2, "master", "success", 0, 20⟩]).2 :=
  c9_errored_idempotent [] "proj"
    [⟨1, "master", "failed", 0, 10⟩, ⟨2, "master", "success", 0, 20⟩] (by decide)

/-- C10: if the in-progress fetch of a cycle raises a transport error, the
Metric Snapshot Store is left unchanged (nothing from this cycle is
published), but the Failure Memory already holds the replacement written by
the earlier `errored` call; the error propagates out of the cycle. -/
theorem c10_scrape_second_fetch_failure (d : Data) (st : State) :
    (scrape (.ok d) (.error ()) st).1.metrics = st.metrics ∧
    (scrape (.ok d) (.error ()) st).1.seen = (errored st.seen d).2 ∧
    (scrape (.ok d) (.error ()) st).2 = .error () :=
  ⟨rfl, rfl, rfl⟩

/-- C7: `calculate_duration` raises the incomplete-pipeline condition iff the
status is not `"success"` and otherwise returns `updated_at - created_at`;
the duration aggregation silently skips such a record, while a matching
record still counts in the branch tally and a `"failed"` record is still
classified as an error. -/
theorem c7_duration_undefined_iff_not_success (p : Pipeline) (branch project : String)
    (st : DurState) (seen : Seen) (rest : List Pipeline) :
    (calculate_duration p = .error .incomplete ↔ p.status ≠ "success") ∧
    (p.status = "success" → calculate_duration p = .ok (p.updated_at - p.created_at)) ∧
    (p.status ≠ "success" → durStep branch project st p = st) ∧
    (p.ref = branch → countBranch branch (p :: rest) = countBranch branch rest + 1) ∧
    (p.status = "failed" → p ∈ (erroredStep seen project (p :: rest)).1) := by
  refine ⟨?_, ?_, ?_, ?_, ?_⟩
  · unfold calculate_duration
    by_cases h : p.status = "success" <;> simp [h]
  · intro h
    simp [calculate_duration, h]
  · intro h
    unfold durStep
    by_cases hr : p.ref = branch
    · simp [hr, calculate_duration, h]
    · simp [hr]
  · intro h
    simp [countBranch, List.filter_cons, h]
  · intro h
    rw [erroredStep_eq]
    refine List.mem_filter.mpr ⟨List.mem_cons_self _ _, ?_⟩
    simp [h]

/-- C7 witness: at a concrete success record the duration is defined and equals
the timestamp difference; at a concrete failed record the duration aggregation
skips the record while the tally and the error classification count it. -/
theorem c7_duration_undefined_iff_not_success_witness :
    calculate_duration ⟨1, "master", "success", 0, 200⟩ = .ok 200 ∧
    durStep "master" "proj" ⟨[], []⟩ ⟨2, "master", "failed", 0, 10⟩ = ⟨[], []⟩ ∧
    countBranch "master" [⟨2, "master", "failed", 0, 10⟩] = 1 ∧
    (⟨2, "master", "failed", 0, 10⟩ : Pipeline) ∈
      (erroredStep [] "proj" [⟨2, "master", "failed", 0, 10⟩]).1 := by
  refine ⟨?_, ?_, ?_, ?_⟩
  · exact (c7_duration_undefined_iff_not_success ⟨1, "master", "success", 0, 200⟩
      "master" "proj" ⟨[], []⟩ [] []).2.1 rfl
  · exact (c7_duration_undefined_iff_not_success ⟨2, "master", "failed", 0, 10⟩
      "master" "proj" ⟨[], []⟩ [] []).2.2.1 (by decide)
  · exact (c7_duration_undefined_iff_not_success ⟨2, "master", "failed", 0, 10⟩
      "master" "proj" ⟨[], []⟩ [] []).2.2.2.1 rfl
  · exact (c7_duration_undefined_iff_not_success ⟨2, "master", "failed", 0, 10⟩
      "master" "proj" ⟨[], []⟩ [] []).2.2.2.2 rfl

end GitlabExporter
